import Mathlib

/-!
Verification development for the Kaleidoscope front end (src/main.cpp):
a shallow embedding of its lexer, recursive-descent parser with
precedence-climbing binary-expression parsing, and AST-to-IR code
generator, together with theorems settling the specification claims.

Modelling conventions:
  - The character stream consumed through getchar() is a `List Char`;
    the C sentinel EOF is modelled by `Option Char` with `none` for EOF.
  - Machine doubles never influence any claim; a numeric literal is
    carried as its source text (the string strtod would receive).
  - A C++ null-pointer result is `none`; LogError appending a line to
    stderr is modelled by appending the message to an error log.
  - std::map subscripting (which default-inserts a value-initialized
    entry for an absent key) is modelled on association lists by
    appending the defaulted entry; lookup semantics agree with the
    ordered map's.
-/

namespace Kaleidoscope

/-! ## Character classification (ctype, as used by the lexer) -/

def cIsSpace (c : Char) : Bool :=
  c = ' ' || c = '\t' || c = '\n' || c = '\x0b' || c = '\x0c' || c = '\r'

def cIsDigit (c : Char) : Bool :=
  '0' ≤ c && c ≤ '9'

def cIsAlpha (c : Char) : Bool :=
  ('a' ≤ c && c ≤ 'z') || ('A' ≤ c && c ≤ 'Z')

def cIsAlnum (c : Char) : Bool :=
  cIsAlpha c || cIsDigit c

/-! ## Lexer (src/main.cpp lines 24-76) -/

/-- Token kinds returned by gettok; the source encodes them as negative
ints plus raw character codes, here a tagged type.  Identifier and
number tokens carry their text (the globals IdentifierStr / the string
passed to strtod for NumVal). -/
inductive Tok where
  | tok_eof : Tok
  | tok_def : Tok
  | tok_extern : Tok
  | tok_identifier : String → Tok
  | tok_number : String → Tok
  | tok_char : Char → Tok
deriving DecidableEq, Repr

/-- Lexer state: the static LastChar cell (none = EOF) and the not yet
consumed part of the input stream. -/
structure LexState where
  lastChar : Option Char
  input : List Char
deriving DecidableEq, Repr

/-- The while (isspace(LastChar)) LastChar = getchar() loop. -/
def skipSpaces : Option Char → List Char → Option Char × List Char
  | some c, input =>
    if cIsSpace c then
      match input with
      | [] => (none, [])
      | d :: rest => skipSpaces (some d) rest
    else (some c, input)
  | none, input => (none, input)

/-- The while (isalnum((LastChar = getchar()))) IdentifierStr += LastChar
loop; returns the accumulated identifier, the new LastChar and the rest
of the input. -/
def readIdent (acc : String) : List Char → String × Option Char × List Char
  | [] => (acc, none, [])
  | c :: rest =>
    if cIsAlnum c then readIdent (acc.push c) rest else (acc, some c, rest)

/-- The do NumStr += LastChar; LastChar = getchar(); while (isdigit ||
period) loop of the number branch. -/
def readNum (acc : String) (c : Char) (input : List Char) :
    String × Option Char × List Char :=
  let acc1 := acc.push c
  match input with
  | [] => (acc1, none, [])
  | d :: rest =>
    if cIsDigit d || d = '.' then readNum acc1 d rest else (acc1, some d, rest)

/-- The do LastChar = getchar(); while (LastChar != EOF, newline, CR)
comment-skipping loop; returns the LastChar it stopped at. -/
def skipComment : List Char → Option Char × List Char
  | [] => (none, [])
  | c :: rest =>
    if c = '\n' || c = '\r' then (some c, rest) else skipComment rest

theorem skipSpaces_length (lc : Option Char) (l : List Char) :
    (skipSpaces lc l).2.length ≤ l.length := by
  induction l generalizing lc with
  | nil =>
    cases lc with
    | none => simp [skipSpaces]
    | some c => by_cases h : cIsSpace c <;> simp [skipSpaces, h]
  | cons d rest ih =>
    cases lc with
    | none => simp [skipSpaces]
    | some c =>
      by_cases h : cIsSpace c
      · simp only [skipSpaces, h, if_pos]
        exact le_trans (ih (some d)) (Nat.le_succ _)
      · simp [skipSpaces, h]

theorem skipComment_some_length (l : List Char) (d : Char) (l' : List Char)
    (h : skipComment l = (some d, l')) : l'.length < l.length := by
  induction l generalizing d l' with
  | nil => simp [skipComment] at h
  | cons c rest ih =>
    by_cases hc : c = '\n' || c = '\r'
    · simp only [skipComment, hc, if_pos] at h
      cases h
      simp
    · simp only [skipComment, hc, if_neg, Bool.false_eq_true,
        not_false_iff] at h
      exact Nat.lt_trans (ih _ _ h) (Nat.lt_succ_self _)

/-- gettok (src/main.cpp lines 35-76): skip whitespace, then dispatch on
the pending character: identifier/keyword, numeral, comment (restart
after the newline), end of input, or a single raw character token. -/
def gettok : LexState → Tok × LexState
  | ⟨lc, input⟩ =>
    match hs : skipSpaces lc input with
    | (none, input1) => (Tok.tok_eof, ⟨none, input1⟩)
    | (some c, input1) =>
      if cIsAlpha c then
        match readIdent (String.singleton c) input1 with
        | (s, lc2, input2) =>
          if s = "def" then (Tok.tok_def, ⟨lc2, input2⟩)
          else if s = "extern" then ( Tok.tok_extern, ⟨lc2, input2⟩)
          else (Tok.tok_identifier s, ⟨lc2, input2⟩)
      else if cIsDigit c || c = '.' then
        match readNum "" c input1 with
        | (s, lc2, input2) => (Tok.tok_number s, ⟨lc2, input2⟩)
      else if c = '#' then
        match hc : skipComment input1 with
        | (none, input2) => (Tok.tok_eof, ⟨none, input2⟩)
        | (some d, input2) => gettok ⟨some d, input2⟩
      else
        match input1 with
        | [] => (Tok.tok_char c, ⟨none, []⟩)
        | d :: rest => (Tok.tok_char c, ⟨some d, rest⟩)
termination_by st => st.input.length
decreasing_by
  have h1 : input1.length ≤ input.length := by
    have := skipSpaces_length lc input
    rw [hs] at this
    exact this
  have h2 : input2.length < input1.length := skipComment_some_length _ _ _ hc
  simpa using Nat.lt_of_lt_of_le h2 h1

theorem gettok_at_eof (input : List Char) :
    gettok ⟨none, input⟩ = (Tok.tok_eof, ⟨none, input⟩) := by
  rw [gettok]
  split
  · rename_i input1 heq
    simp only [skipSpaces, Prod.mk.injEq] at heq
    rw [heq.2]
  · rename_i c input1 heq
    simp [skipSpaces] at heq

theorem gettok_eof_aux (n : Nat) :
    ∀ (lc : Option Char) (input : List Char) (t : Tok) (st2 : LexState),
      input.length ≤ n → gettok ⟨lc, input⟩ = (t, st2) →
      t = Tok.tok_eof → st2.lastChar = none := by
  induction n using Nat.strong_induction_on with
  | _ n ih =>
  intro lc input t st2 hlen hEq ht
  subst ht
  rw [gettok] at hEq
  split at hEq
  · cases hEq
    rfl
  · rename_i c input1 hs
    split at hEq
    · -- identifier / keyword branch
      split at hEq
      split at hEq
      · simp_all
      · split at hEq <;> simp_all
    · split at hEq
      · -- number branch
        split at hEq
        simp_all
      · split at hEq
        · -- comment branch
          split at hEq
          · cases hEq
            rfl
          · rename_i d input2 hc
            have ha1 : input1.length ≤ input.length := by
              have := skipSpaces_length lc input
              rw [hs] at this
              exact this
            have hlt : input2.length < n :=
              Nat.lt_of_lt_of_le
                (Nat.lt_of_lt_of_le (skipComment_some_length _ _ _ hc) ha1)
                hlen
            exact ih input2.length hlt (some d) input2 _ st2 (Nat.le_refl _)
              hEq rfl
        · -- raw character branch
          split at hEq <;> simp_all

theorem gettok_eof_lastChar (st : LexState)
    (h : (gettok st).1 = Tok.tok_eof) : (gettok st).2.lastChar = none := by
  obtain ⟨lc, input⟩ := st
  rcases hE : gettok ⟨lc, input⟩ with ⟨t, st2⟩
  rw [hE] at h
  exact gettok_eof_aux input.length lc input t st2 (Nat.le_refl _) hE h

/-- C9: once the input stream is exhausted (the pending character is the
EOF sentinel), gettok returns the end-of-input token and leaves the
state unchanged; and whenever gettok returns the end-of-input token, the
next call returns it again from an unchanged state, so the end token is
stable under repeated calls. -/
theorem gettok_eof_stable :
    (∀ input : List Char, gettok ⟨none, input⟩ = (Tok.tok_eof, ⟨none, input⟩))
    ∧ ∀ st : LexState, (gettok st).1 = Tok.tok_eof →
        gettok (gettok st).2 = (Tok.tok_eof, (gettok st).2) := by
  constructor
  · exact gettok_at_eof
  · intro st h
    have h2 := gettok_eof_lastChar st h
    have : (gettok st).2 = ⟨none, (gettok st).2.input⟩ := by
      rcases hr : (gettok st).2 with ⟨lc, inp⟩
      rw [hr] at h2
      simp at h2
      simp [h2]
    rw [this]
    exact gettok_at_eof _

/-- Witness for C9: a lexer state whose pending character is EOF yields
the end token, and calling gettok again on the resulting state yields
the end token again. -/
theorem gettok_eof_stable_witness :
    gettok (gettok ⟨none, []⟩).2 = (Tok.tok_eof, (gettok ⟨none, []⟩).2) :=
  gettok_eof_stable.2 ⟨none, []⟩ (by rw [gettok_eof_stable.1 []])

/-! ## Operator precedence table (src/main.cpp lines 235-242, 423-427)

std::map of char to int, modelled as an association list with unique
keys; subscripting an absent key value-initializes it to 0 (appended at
the end; lookup semantics agree with the ordered map's). -/

def BinopMap := List (Char × Int)

def mapFind : List (Char × Int) → Char → Option Int
  | [], _ => none
  | (k, v) :: rest, c => if k = c then some v else mapFind rest c

/-- std::map subscript operator: return the stored value, or insert a
value-initialized (0) entry for an absent key and return it. -/
def mapIndex (m : List (Char × Int)) (c : Char) : Int × List (Char × Int) :=
  match mapFind m c with
  | some v => (v, m)
  | none => (0, m ++ [(c, 0)])

/-- The precedence value semantics of the table: the stored value, or 0
when absent (exactly what subscripting yields). -/
def precVal (m : List (Char × Int)) (c : Char) : Int :=
  (mapFind m c).getD 0

/-- The table as initialized at the start of main (lines 424-427). -/
def BinopPrecedenceInit : List (Char × Int) :=
  [('<', 10), ('+', 20), ('-', 20), ('*', 40)]

/-- GetTokPrecedence (lines 237-242): non-ascii (negative) token codes
yield -1 without touching the table; an ascii character is looked up
with subscripting (possibly inserting a 0 entry), and non-positive
results are mapped to -1. -/
def GetTokPrecedence (t : Tok) (m : List (Char × Int)) :
    Int × List (Char × Int) :=
  match t with
  | Tok.tok_char c =>
    if c.toNat ≤ 127 then
      let pr := mapIndex m c
      if pr.1 ≤ 0 then (-1, pr.2) else (pr.1, pr.2)
    else (-1, m)
  | _ => (-1, m)

theorem mapFind_append (m : List (Char × Int)) (e : Char × Int) (c : Char) :
    mapFind (m ++ [e]) c =
      match mapFind m c with
      | some v => some v
      | none => if e.1 = c then some e.2 else none := by
  induction m with
  | nil => simp [mapFind]
  | cons p rest ih =>
    by_cases h : p.1 = c
    · simp [mapFind, h]
    · simp only [List.cons_append, mapFind, h, if_neg, not_false_iff]
      exact ih

/-- C4 (amended): a precedence lookup never changes the value associated
with any character (the precedence semantics precVal is invariant) and
never overwrites an existing entry; the only possible change is the
default-insertion of a zero-valued entry for a previously absent key. -/
theorem GetTokPrecedence_table_readonly (t : Tok) (m : List (Char × Int)) :
    (∀ c, precVal (GetTokPrecedence t m).2 c = precVal m c) ∧
    (∀ c v, mapFind m c = some v → mapFind (GetTokPrecedence t m).2 c = some v) ∧
    (∀ c, mapFind (GetTokPrecedence t m).2 c = mapFind m c ∨
      (mapFind m c = none ∧ mapFind (GetTokPrecedence t m).2 c = some 0)) := by
  have hm2 : (GetTokPrecedence t m).2 = m ∨
      ∃ c0, mapFind m c0 = none ∧ (GetTokPrecedence t m).2 = m ++ [(c0, 0)] := by
    cases t with
    | tok_char c =>
      by_cases ha : c.toNat ≤ 127
      · simp only [GetTokPrecedence, ha, if_pos]
        rcases hf : mapFind m c with _ | v
        · right
          refine ⟨c, hf, ?_⟩
          simp [mapIndex, hf]
        · left
          simp [mapIndex, hf]
          split <;> rfl
      · left
        simp [GetTokPrecedence, ha]
    | tok_eof => left; rfl
    | tok_def => left; rfl
    | tok_extern => left; rfl
    | tok_identifier s => left; rfl
    | tok_number s => left; rfl
  rcases hm2 with h | ⟨c0, hc0, h⟩
  · rw [h]
    refine ⟨fun c => rfl, fun c v hv => hv, fun c => Or.inl rfl⟩
  · rw [h]
    refine ⟨?_, ?_, ?_⟩
    · intro c
      rw [precVal, precVal, mapFind_append]
      rcases hf : mapFind m c with _ | v
      · by_cases he : c0 = c
        · subst he
          simp
        · simp [he]
      · simp
    · intro c v hv
      rw [mapFind_append, hv]
    · intro c
      rw [mapFind_append]
      rcases hf : mapFind m c with _ | v
      · by_cases he : c0 = c
        · subst he
          right
          simp [hf]
        · left
          simp [he]
      · left
        simp

/-- Witness for C4 (amended): looking up the non-operator character
semicolon leaves every initialized entry intact, e.g. the entry for
plus. -/
theorem GetTokPrecedence_table_readonly_witness :
    mapFind (GetTokPrecedence (Tok.tok_char ';') BinopPrecedenceInit).2 '+'
      = some 20 :=
  (GetTokPrecedence_table_readonly (Tok.tok_char ';')
    BinopPrecedenceInit).2.1 '+' 20 (by decide)

/-! ## AST (src/main.cpp lines 80-133) -/

/-- Expression nodes.  NumberExprAST carries the numeral text whose
strtod value the source stores (no claim depends on the float value). -/
inductive ExprAST where
  | NumberExprAST : String → ExprAST
  | VariableExprAST : String → ExprAST
  | BinaryExprAST : Char → ExprAST → ExprAST → ExprAST
  | CallExprAST : String → List ExprAST → ExprAST
deriving Repr

structure PrototypeAST where
  name : String
  args : List String
deriving DecidableEq, Repr

structure FunctionAST where
  proto : PrototypeAST
  body : ExprAST

/-! ## Parser (src/main.cpp lines 135-305)

The parser interacts with the lexer only through the CurTok cell and
getNextToken; its state is the current token, the remaining token
stream, the process-wide precedence table (threaded because
GetTokPrecedence can mutate it), and the stderr log of LogError lines.
An exhausted stream yields tok_eof on every further getNextToken, which
is what gettok does at end of input (theorem gettok_eof_stable). -/

structure PState where
  curTok : Tok
  toks : List Tok
  prec : List (Char × Int)
  errs : List String
deriving Repr

def getNextToken (st : PState) : PState :=
  match st.toks with
  | [] => { st with curTok := Tok.tok_eof }
  | t :: ts => { st with curTok := t, toks := ts }

/-- LogError / LogErrorP (lines 140-148): print the diagnostic and
return null. -/
def LogError {α : Type} (msg : String) (st : PState) : Option α × PState :=
  (none, { st with errs := st.errs ++ [msg] })

/-- Reading the IdentifierStr global while CurTok is tok_identifier. -/
def tokIdent : Tok → String
  | Tok.tok_identifier s => s
  | _ => ""

/-- Reading the NumVal global (kept as the numeral text) while CurTok is
tok_number. -/
def tokNum : Tok → String
  | Tok.tok_number s => s
  | _ => ""

/-- The int-to-char narrowing int BinOp = CurTok in ParseBinOpRHS; the
parser only reaches it when CurTok is a raw character token. -/
def tokChar : Tok → Char
  | Tok.tok_char c => c
  | _ => Char.ofNat 0

/-- ParseNumberExpr (lines 174-178). -/
def ParseNumberExpr (st : PState) : Option ExprAST × PState :=
  (some (ExprAST.NumberExprAST (tokNum st.curTok)), getNextToken st)

/- The mutually recursive parse functions (lines 166-259), with a fuel
argument making the recursion structural; every recursive call runs at
the predecessor fuel, and exhausted fuel returns the null result.  All
claims are stated for every sufficiently large fuel. -/
mutual

/-- ParseExpression (lines 166-172): one primary, then precedence
climbing. -/
def ParseExpression : Nat → PState → Option ExprAST × PState
  | 0, st => (none, st)
  | Nat.succ f, st =>
    match ParsePrimary f st with
    | (none, st1) => (none, st1)
    | (some lhs, st1) => ParseBinOpRHS f 0 lhs st1

/-- ParsePrimary (lines 220-231): dispatch on the current token. -/
def ParsePrimary : Nat → PState → Option ExprAST × PState
  | 0, st => (none, st)
  | Nat.succ f, st =>
    match st.curTok with
    | Tok.tok_identifier _ => ParseIdentifierExpr f st
    | Tok.tok_number _ => ParseNumberExpr st
    | Tok.tok_char c =>
      if c = '(' then ParseParenExpr f st
      else LogError "unknown token when expecting an expression" st
    | _ => LogError "unknown token when expecting an expression" st

/-- ParseParenExpr (lines 180-191): eat the open paren, parse an
expression, require and eat the close paren. -/
def ParseParenExpr : Nat → PState → Option ExprAST × PState
  | 0, st => (none, st)
  | Nat.succ f, st =>
    let st1 := getNextToken st
    match ParseExpression f st1 with
    | (none, st2) => (none, st2)
    | (some v, st2) =>
      if st2.curTok = Tok.tok_char ')' then (some v, getNextToken st2)
      else LogError "expected \x27)\x27" st2

/-- ParseIdentifierExpr (lines 193-218): a bare variable reference, or a
call with a comma-separated argument list in parentheses. -/
def ParseIdentifierExpr : Nat → PState → Option ExprAST × PState
  | 0, st => (none, st)
  | Nat.succ f, st =>
    let idName := tokIdent st.curTok
    let st1 := getNextToken st
    if st1.curTok = Tok.tok_char '(' then
      let st2 := getNextToken st1
      if st2.curTok = Tok.tok_char ')' then
        (some (ExprAST.CallExprAST idName []), getNextToken st2)
      else
        match ParseCallArgs f [] st2 with
        | (none, st3) => (none, st3)
        | (some args, st3) =>
          (some (ExprAST.CallExprAST idName args), getNextToken st3)
    else (some (ExprAST.VariableExprAST idName), st1)

/-- The while (1) argument loop of ParseIdentifierExpr (lines 203-213):
parse an expression, stop (without eating) at the close paren, eat a
comma and continue, or fail. -/
def ParseCallArgs : Nat → List ExprAST → PState → Option (List ExprAST) × PState
  | 0, _, st => (none, st)
  | Nat.succ f, acc, st =>
    match ParseExpression f st with
    | (none, st1) => (none, st1)
    | (some arg, st1) =>
      if st1.curTok = Tok.tok_char ')' then (some (acc ++ [arg]), st1)
      else if st1.curTok = Tok.tok_char ',' then
        ParseCallArgs f (acc ++ [arg]) (getNextToken st1)
      else LogError "Expected \x27)\x27 or \x27,\x27 in argument list." st1

/-- ParseBinOpRHS (lines 244-259): the precedence-climbing loop.  Each
iteration reads the current operator precedence (possibly mutating the
table through the map subscript in GetTokPrecedence), stops if it binds
weaker than ExprPrec, otherwise eats the operator, parses a primary,
lets a tighter-binding following operator absorb it first, combines, and
continues with the combined node as the new left-hand side. -/
def ParseBinOpRHS : Nat → Int → ExprAST → PState → Option ExprAST × PState
  | 0, _, _, st => (none, st)
  | Nat.succ f, exprPrec, lhs, st =>
    let pr := GetTokPrecedence st.curTok st.prec
    let st0 : PState := { st with prec := pr.2 }
    if pr.1 < exprPrec then (some lhs, st0)
    else
      let binOp := tokChar st0.curTok
      let st1 := getNextToken st0
      match ParsePrimary f st1 with
      | (none, st2) => (none, st2)
      | (some rhs, st2) =>
        let pr2 := GetTokPrecedence st2.curTok st2.prec
        let st3 : PState := { st2 with prec := pr2.2 }
        if pr.1 < pr2.1 then
          match ParseBinOpRHS f (pr.1 + 1) rhs st3 with
          | (none, st4) => (none, st4)
          | (some rhs2, st4) =>
            ParseBinOpRHS f exprPrec (ExprAST.BinaryExprAST binOp lhs rhs2) st4
        else
          ParseBinOpRHS f exprPrec (ExprAST.BinaryExprAST binOp lhs rhs) st3

end

/-- The while (getNextToken() == tok_identifier) argument-name loop of
ParsePrototype (lines 272-274), directly on the token stream; returns
the collected names, the token the loop stopped at, and the stream after
it. -/
def readProtoArgs (acc : List String) : List Tok → List String × Tok × List Tok
  | [] => (acc, Tok.tok_eof, [])
  | t :: ts =>
    match t with
    | Tok.tok_identifier s => readProtoArgs (acc ++ [s]) ts
    | _ => (acc, t, ts)

/-- ParsePrototype (lines 262-280): function name, open paren, argument
names, close paren. -/
def ParsePrototype (st : PState) : Option PrototypeAST × PState :=
  match st.curTok with
  | Tok.tok_identifier fnName =>
    let st1 := getNextToken st
    if st1.curTok = Tok.tok_char '(' then
      let r := readProtoArgs [] st1.toks
      let st2 : PState :=
        { st1 with curTok := r.2.1, toks := r.2.2 }
      if st2.curTok = Tok.tok_char ')' then
        (some ⟨fnName, r.1⟩, getNextToken st2)
      else LogError "Expected \x27)\x27 in prototype" st2
    else LogError "Expected \x27(\x27 in prototype" st1
  | _ => LogError "Expected function name in prototype" st

/-- Packs a token stream into a parser state: the first token is the
current one (an empty stream leaves the parser at end of input). -/
def mkPState (ts : List Tok) (m : List (Char × Int)) (errs : List String) :
    PState :=
  match ts with
  | [] => ⟨Tok.tok_eof, [], m, errs⟩
  | t :: tr => ⟨t, tr, m, errs⟩

theorem mkPState_cons (t : Tok) (ts : List Tok) (m : List (Char × Int))
    (errs : List String) : mkPState (t :: ts) m errs = ⟨t, ts, m, errs⟩ := rfl

theorem mkPState_nil (m : List (Char × Int)) (errs : List String) :
    mkPState [] m errs = ⟨Tok.tok_eof, [], m, errs⟩ := rfl

theorem getNextToken_mkPState (t : Tok) (ts : List Tok)
    (m : List (Char × Int)) (errs : List String) :
    getNextToken ⟨t, ts, m, errs⟩ = mkPState ts m errs := by
  cases ts <;> rfl

/-- C8: ParsePrototype on the token stream of "foo(x y)" yields the
prototype foo with parameters x, y; on the token stream of "foo(x y"
(missing close paren) it logs the missing-close-paren diagnostic and
returns the null result, not a partial prototype. -/
theorem ParsePrototype_examples :
    (ParsePrototype (mkPState [Tok.tok_identifier "foo", Tok.tok_char '(',
        Tok.tok_identifier "x", Tok.tok_identifier "y", Tok.tok_char ')']
        BinopPrecedenceInit [])).1
      = some ⟨"foo", ["x", "y"]⟩
    ∧ ParsePrototype (mkPState [Tok.tok_identifier "foo", Tok.tok_char '(',
        Tok.tok_identifier "x", Tok.tok_identifier "y"]
        BinopPrecedenceInit [])
      = (none, ⟨Tok.tok_eof, [], BinopPrecedenceInit,
          ["Expected \x27)\x27 in prototype"]⟩) :=
  ⟨rfl, rfl⟩

/-- C4 counterexample: a parsing operation does change the precedence
table after initialization.  Parsing the token stream of "1;" makes
ParseBinOpRHS look up the precedence of the semicolon, and the map
subscript in GetTokPrecedence default-inserts a zero entry for it: after
the parse the table has an entry for the semicolon that the initialized
table does not have. -/
theorem GetTokPrecedence_mutation_counterexample :
    mapFind (ParseExpression 5 (mkPState [Tok.tok_number "1", Tok.tok_char ';']
        BinopPrecedenceInit [])).2.prec ';' = some 0
    ∧ mapFind BinopPrecedenceInit ';' = none :=
  ⟨rfl, rfl⟩

/-! ## Compositional parsing facts used by the associativity claim -/

/-- Invariance of the precedence semantics relative to the initialized
table (the table may gain zero-valued entries during parsing, which
never changes any lookup result). -/
def PrecInv (m : List (Char × Int)) : Prop :=
  ∀ c, precVal m c = precVal BinopPrecedenceInit c

theorem precInv_init : PrecInv BinopPrecedenceInit := fun _ => rfl

/-- A token stream may legally follow a primary expression if it does
not begin with an open paren (which would glue onto a preceding
identifier as a call). -/
def RestOk : List Tok → Prop
  | [] => True
  | t :: _ => t ≠ Tok.tok_char '('

/-- The token sequence ts parses as exactly the primary expression e:
from any continuation (not starting with an open paren), any error log
and any precedence table equivalent to the initialized one, ParsePrimary
with fuel at least N consumes precisely ts and returns e, preserving the
log and the precedence semantics. -/
def PrimaryParses (N : Nat) (ts : List Tok) (e : ExprAST) : Prop :=
  ∀ f rest m errs, N ≤ f → RestOk rest → PrecInv m →
    ∃ m2, PrecInv m2 ∧
      ParsePrimary f (mkPState (ts ++ rest) m errs)
        = (some e, mkPState rest m2 errs)

theorem posPrec_chars (c : Char) (h : 0 < precVal BinopPrecedenceInit c) :
    c = '<' ∨ c = '+' ∨ c = '-' ∨ c = '*' := by
  by_cases e1 : c = '<'
  · exact Or.inl e1
  by_cases e2 : c = '+'
  · exact Or.inr (Or.inl e2)
  by_cases e3 : c = '-'
  · exact Or.inr (Or.inr (Or.inl e3))
  by_cases e4 : c = '*'
  · exact Or.inr (Or.inr (Or.inr e4))
  exfalso
  have hz : precVal BinopPrecedenceInit c = 0 := by
    simp only [precVal, BinopPrecedenceInit, mapFind]
    rw [if_neg (fun hh => e1 hh.symm), if_neg (fun hh => e2 hh.symm),
      if_neg (fun hh => e3 hh.symm), if_neg (fun hh => e4 hh.symm)]
    rfl
  rw [hz] at h
  exact lt_irrefl 0 h

theorem posPrec_ascii (c : Char) (h : 0 < precVal BinopPrecedenceInit c) :
    c.toNat ≤ 127 := by
  rcases posPrec_chars c h with h1 | h1 | h1 | h1 <;> subst h1 <;> decide

theorem restOk_op (c : Char) (h : 0 < precVal BinopPrecedenceInit c)
    (rest : List Tok) : RestOk (Tok.tok_char c :: rest) := by
  show Tok.tok_char c ≠ Tok.tok_char '('
  intro he
  have hc2 : c = '(' := by injection he
  subst hc2
  revert h
  decide

theorem GetTokPrecedence_eof (m : List (Char × Int)) :
    GetTokPrecedence Tok.tok_eof m = (-1, m) := rfl

/-- Looking up an operator with positive initialized precedence in any
table with the initialized semantics returns that precedence and leaves
the table unchanged. -/
theorem GetTokPrecedence_of_pos (c : Char) (m : List (Char × Int))
    (hm : PrecInv m) (h : 0 < precVal BinopPrecedenceInit c) :
    GetTokPrecedence (Tok.tok_char c) m
      = (precVal BinopPrecedenceInit c, m) := by
  have hv : precVal m c = precVal BinopPrecedenceInit c := hm c
  have hf : mapFind m c = some (precVal BinopPrecedenceInit c) := by
    rcases hfind : mapFind m c with _ | v
    · exfalso
      rw [precVal, hfind] at hv
      simp only [Option.getD_none] at hv
      rw [← hv] at h
      exact lt_irrefl 0 h
    · rw [precVal, hfind] at hv
      simp only [Option.getD_some] at hv
      rw [hv]
  have ha : c.toNat ≤ 127 := posPrec_ascii c h
  simp only [GetTokPrecedence, ha, if_pos, mapIndex, hf]
  rw [if_neg (by omega)]

theorem primaryParses_number (s : String) :
    PrimaryParses 1 [Tok.tok_number s] (ExprAST.NumberExprAST s) := by
  intro f rest m errs hf hr hm
  refine ⟨m, hm, ?_⟩
  obtain ⟨g, rfl⟩ : ∃ g, f = Nat.succ g := ⟨f - 1, by omega⟩
  simp only [List.singleton_append, mkPState_cons, ParsePrimary,
    ParseNumberExpr, tokNum, getNextToken_mkPState]

/-- C1: for every token sequence of the form a OP1 b OP2 c, with a, b, c
parsing as primary expressions and OP1, OP2 operator characters with
positive entries in the initialized precedence table, ParseExpression
(with sufficient fuel) consumes the whole sequence and produces
((a OP1 b) OP2 c) when precedence(OP1) is at least precedence(OP2), and
(a OP1 (b OP2 c)) when precedence(OP1) is less than precedence(OP2). -/
theorem ParseExpression_two_ops_assoc
    (ta tb tc : List Tok) (ea eb ec : ExprAST) (op1 op2 : Char)
    (Na Nb Nc : Nat)
    (ha : PrimaryParses Na ta ea) (hb : PrimaryParses Nb tb eb)
    (hc : PrimaryParses Nc tc ec)
    (h1 : 0 < precVal BinopPrecedenceInit op1)
    (h2 : 0 < precVal BinopPrecedenceInit op2) :
    ∀ f errs, Na + Nb + Nc + 8 ≤ f →
    ∃ m3, PrecInv m3 ∧
      ParseExpression f
        (mkPState (ta ++ Tok.tok_char op1 :: (tb ++ Tok.tok_char op2 :: tc))
          BinopPrecedenceInit errs)
      = (some (if precVal BinopPrecedenceInit op2
                  ≤ precVal BinopPrecedenceInit op1
               then ExprAST.BinaryExprAST op2
                      (ExprAST.BinaryExprAST op1 ea eb) ec
               else ExprAST.BinaryExprAST op1 ea
                      (ExprAST.BinaryExprAST op2 eb ec)),
         mkPState [] m3 errs) := by
  intro f errs hf
  obtain ⟨g, rfl⟩ : ∃ g, f = g.succ.succ.succ.succ := ⟨f - 4, by omega⟩
  obtain ⟨m1, hm1, hA⟩ :=
    ha g.succ.succ.succ (Tok.tok_char op1 :: (tb ++ Tok.tok_char op2 :: tc))
      BinopPrecedenceInit errs (by omega) (restOk_op op1 h1 _) precInv_init
  obtain ⟨m2, hm2, hB⟩ :=
    hb g.succ.succ (Tok.tok_char op2 :: tc) m1 errs (by omega)
      (restOk_op op2 h2 _) hm1
  obtain ⟨m3, hm3, hC⟩ := hc g.succ [] m2 errs (by omega) trivial hm2
  rw [List.append_nil] at hC
  have hP1 : GetTokPrecedence (Tok.tok_char op1) m1
      = (precVal BinopPrecedenceInit op1, m1) :=
    GetTokPrecedence_of_pos op1 m1 hm1 h1
  have hP2 : GetTokPrecedence (Tok.tok_char op2) m2
      = (precVal BinopPrecedenceInit op2, m2) :=
    GetTokPrecedence_of_pos op2 m2 hm2 h2
  have hn1 : ¬ (precVal BinopPrecedenceInit op1 < 0) := by omega
  have hn2 : ¬ (precVal BinopPrecedenceInit op2 < 0) := by omega
  have hn4 : ¬ (precVal BinopPrecedenceInit op2 < -1) := by omega
  have hneg : (-1 : Int) < 0 := by omega
  refine ⟨m3, hm3, ?_⟩
  by_cases hcmp : precVal BinopPrecedenceInit op1
      < precVal BinopPrecedenceInit op2
  · -- OP2 binds tighter: right recursion absorbs b OP2 c first
    rw [if_neg (by omega)]
    have hn3 : ¬ (precVal BinopPrecedenceInit op2
        < precVal BinopPrecedenceInit op1 + 1) := by omega
    have hp5 : (-1 : Int) < precVal BinopPrecedenceInit op1 + 1 := by omega
    simp only [ParseExpression, hA, ParseBinOpRHS, mkPState_cons, hP1,
      if_neg hn1, tokChar, getNextToken_mkPState, hB, hP2, if_pos hcmp,
      if_neg hn3, hC, mkPState_nil, GetTokPrecedence_eof, if_neg hn4,
      if_pos hp5, if_pos hneg]
  · -- OP1 binds at least as tight: combine a OP1 b first
    rw [if_pos (by omega)]
    simp only [ParseExpression, hA, ParseBinOpRHS, mkPState_cons, hP1,
      if_neg hn1, tokChar, getNextToken_mkPState, hB, hP2, if_neg hcmp,
      hC, mkPState_nil, GetTokPrecedence_eof, if_neg hn2, if_neg hn4,
      if_pos hneg]

/-- Witness for C1: the token stream of "1+2*3" parses as
1 + (2 * 3), the multiplication binding tighter. -/
theorem ParseExpression_two_ops_assoc_witness :
    (ParseExpression 14 (mkPState [Tok.tok_number "1", Tok.tok_char '+',
        Tok.tok_number "2", Tok.tok_char '*', Tok.tok_number "3"]
        BinopPrecedenceInit [])).1
      = some (ExprAST.BinaryExprAST '+' (ExprAST.NumberExprAST "1")
          (ExprAST.BinaryExprAST '*' (ExprAST.NumberExprAST "2")
            (ExprAST.NumberExprAST "3"))) := by
  obtain ⟨m3, hm3, hE⟩ := ParseExpression_two_ops_assoc
    [Tok.tok_number "1"] [Tok.tok_number "2"] [Tok.tok_number "3"]
    (ExprAST.NumberExprAST "1") (ExprAST.NumberExprAST "2")
    (ExprAST.NumberExprAST "3") '+' '*' 1 1 1
    (primaryParses_number "1") (primaryParses_number "2")
    (primaryParses_number "3") (by decide) (by decide) 14 [] (by omega)
  simp only [List.singleton_append] at hE
  rw [hE]
  rw [if_neg (by decide)]

/-! ## Code generation (src/main.cpp lines 358-421)

The backend is modelled observably: a module is the list of declared
functions, the builder is the list of emitted instructions (a value
handle names the instruction that produced it, a constant, or a function
parameter), NamedValues is the parameter-binding table (whose stored
pointers may be null), and LogErrorV appends to the diagnostic log. -/

inductive Ty where
  | double : Ty
  | i1 : Ty
deriving DecidableEq, Repr

inductive Linkage where
  | External : Linkage
  | Internal : Linkage
deriving DecidableEq, Repr

/-- An llvm::Function as observable through this program: name,
parameter types, return type, linkage. -/
structure FunctionDecl where
  name : String
  paramTypes : List Ty
  retTy : Ty
  linkage : Linkage
deriving DecidableEq, Repr

/-- A backend value handle: a floating-point constant (carrying its
numeral text), a function parameter, or the result of the n-th emitted
instruction. -/
inductive Value where
  | constFP : String → Value
  | arg : String → Nat → Value
  | instr : Nat → Value
deriving DecidableEq, Repr

inductive Instr where
  | FAdd : Value → Value → Instr
  | FSub : Value → Value → Instr
  | FMul : Value → Value → Instr
  | FCmpULT : Value → Value → Instr
  | UIToFP : Value → Ty → Instr
  | CallInstr : String → List Value → Instr
deriving DecidableEq, Repr

/-- Result width of each instruction: fcmp always returns an i1 value;
uitofp returns its target type. -/
def Instr.resTy : Instr → Ty
  | Instr.FAdd _ _ => Ty.double
  | Instr.FSub _ _ => Ty.double
  | Instr.FMul _ _ => Ty.double
  | Instr.FCmpULT _ _ => Ty.i1
  | Instr.UIToFP _ t => t
  | Instr.CallInstr _ _ => Ty.double

/-- Code-generation state: TheModule, NamedValues, the Builder's emitted
instructions, and the stderr log. -/
structure CG where
  module : List FunctionDecl
  namedValues : List (String × Option Value)
  instrs : List Instr
  errs : List String
deriving DecidableEq, Repr

/-- TheModule->getFunction(name). -/
def getFunction : List FunctionDecl → String → Option FunctionDecl
  | [], _ => none
  | F :: rest, n => if F.name = n then some F else getFunction rest n

/-- Lookup in NamedValues (the stored pointer may itself be null). -/
def nvFind : List (String × Option Value) → String → Option (Option Value)
  | [], _ => none
  | (k, v) :: rest, n => if k = n then some v else nvFind rest n

/-- std::map subscripting on NamedValues: return the stored pointer, or
default-insert a null entry for an absent name and return that null. -/
def nvIndex (m : List (String × Option Value)) (k : String) :
    Option Value × List (String × Option Value) :=
  match nvFind m k with
  | some v => (v, m)
  | none => (none, m ++ [(k, none)])

/-- Builder.CreateXxx: append the instruction and hand back a value
handle naming its result. -/
def emit (i : Instr) (cg : CG) : Value × CG :=
  (Value.instr cg.instrs.length, { cg with instrs := cg.instrs ++ [i] })

/-- LogErrorV (lines 150-153): print the diagnostic and return null. -/
def LogErrorV (msg : String) (cg : CG) : Option Value × CG :=
  (none, { cg with errs := cg.errs ++ [msg] })

mutual

/-- The codegen methods of the expression nodes (lines 364-414). -/
def ExprAST.codegen : ExprAST → CG → Option Value × CG
  | ExprAST.NumberExprAST s, cg => (some (Value.constFP s), cg)
  | ExprAST.VariableExprAST n, cg =>
    match nvIndex cg.namedValues n with
    | (some v, nv) => (some v, { cg with namedValues := nv })
    | (none, nv) => LogErrorV "Unknown variable name" { cg with namedValues := nv }
  | ExprAST.BinaryExprAST op l r, cg =>
    match ExprAST.codegen l cg with
    | (L, cg1) =>
      match ExprAST.codegen r cg1 with
      | (R, cg2) =>
        match L, R with
        | some lv, some rv =>
          if op = '+' then
            let e := emit (Instr.FAdd lv rv) cg2
            (some e.1, e.2)
          else if op = '-' then
            let e := emit (Instr.FSub lv rv) cg2
            (some e.1, e.2)
          else if op = '*' then
            let e := emit (Instr.FMul lv rv) cg2
            (some e.1, e.2)
          else if op = '<' then
            let e1 := emit (Instr.FCmpULT lv rv) cg2
            let e2 := emit (Instr.UIToFP e1.1 Ty.double) e1.2
            (some e2.1, e2.2)
          else LogErrorV "invalid binary operator" cg2
        | _, _ => (none, cg2)
  | ExprAST.CallExprAST callee args, cg =>
    match getFunction cg.module callee with
    | none => LogErrorV "unknown function referenced." cg
    | some F =>
      if F.paramTypes.length ≠ args.length then
        LogErrorV "Incorrect number of arguments passed." cg
      else
        match codegenArgs args cg with
        | (none, cg1) => (none, cg1)
        | (some argVs, cg1) =>
          let e := emit (Instr.CallInstr callee argVs) cg1
          (some e.1, e.2)

/-- The argument loop of CallExprAST::codegen (lines 406-411): generate
each argument left to right, returning null as soon as one fails. -/
def codegenArgs : List ExprAST → CG → Option (List Value) × CG
  | [], cg => (some [], cg)
  | a :: rest, cg =>
    match ExprAST.codegen a cg with
    | (none, cg1) => (none, cg1)
    | (some v, cg1) =>
      match codegenArgs rest cg1 with
      | (none, cg2) => (none, cg2)
      | (some vs, cg2) => (some (v :: vs), cg2)

end

/-- The function declaration PrototypeAST::codegen builds: one double
parameter per declared name, double return type, external linkage. -/
def protoDecl (p : PrototypeAST) : FunctionDecl :=
  ⟨p.name, p.args.map (fun _ => Ty.double), Ty.double, Linkage.External⟩

/-- PrototypeAST::codegen (lines 416-421): builds the FunctionType (k
doubles to double) and calls Function::Create with ExternalLinkage and
the prototype's name in TheModule, which registers the declaration in
the module; the definition then ends without a return statement (and the
class declares no codegen member at lines 118-124), so the caller
receives no defined handle: the missing return value is modelled as
none. -/
def PrototypeAST.codegen (p : PrototypeAST) (cg : CG) :
    Option FunctionDecl × CG :=
  (none, { cg with module := cg.module ++ [protoDecl p] })

/-- C3 (records what the code actually does): for every prototype with
name N and k parameter names, codegen does append to the module a
declaration of N with k double parameters, double return type and
external linkage, but returns no handle to it, because the source falls
off the end of PrototypeAST::codegen without a return statement. -/
theorem PrototypeAST_codegen_declares_without_return (p : PrototypeAST)
    (cg : CG) :
    PrototypeAST.codegen p cg
      = (none, { cg with module := cg.module ++
          [⟨p.name, p.args.map (fun _ => Ty.double), Ty.double,
            Linkage.External⟩] }) := rfl

/-- C6: codegen of a call whose callee is not among the functions of the
current module fails with the unknown-function diagnostic and leaves the
builder untouched: no argument instruction and no call instruction is
emitted. -/
theorem CallExpr_codegen_unknown_function (callee : String)
    (args : List ExprAST) (cg : CG)
    (h : getFunction cg.module callee = none) :
    ExprAST.codegen (ExprAST.CallExprAST callee args) cg
      = (none, { cg with errs :=
          cg.errs ++ ["unknown function referenced."] }) := by
  simp only [ExprAST.codegen, h, LogErrorV]

/-- Witness for C6. -/
theorem CallExpr_codegen_unknown_function_witness :
    ExprAST.codegen (ExprAST.CallExprAST "foo" []) ⟨[], [], [], []⟩
      = (none, ⟨[], [], [], ["unknown function referenced."]⟩) := by
  rw [CallExpr_codegen_unknown_function "foo" [] ⟨[], [], [], []⟩ rfl]
  rfl

/-- C5: codegen of a call whose callee is declared with a parameter
count different from the argument count fails with the
incorrect-number-of-arguments diagnostic before generating any argument:
the resulting state differs from the input state only by the logged
diagnostic, so no argument instruction and no call instruction is
emitted. -/
theorem CallExpr_codegen_arity_mismatch (callee : String)
    (args : List ExprAST) (cg : CG) (F : FunctionDecl)
    (hf : getFunction cg.module callee = some F)
    (hn : F.paramTypes.length ≠ args.length) :
    ExprAST.codegen (ExprAST.CallExprAST callee args) cg
      = (none, { cg with errs :=
          cg.errs ++ ["Incorrect number of arguments passed."] }) := by
  simp only [ExprAST.codegen, hf]
  rw [if_pos hn]
  rfl

/-- Witness for C5: calling a unary function with no arguments. -/
theorem CallExpr_codegen_arity_mismatch_witness :
    ExprAST.codegen (ExprAST.CallExprAST "foo" [])
        ⟨[⟨"foo", [Ty.double], Ty.double, Linkage.External⟩], [], [], []⟩
      = (none, ⟨[⟨"foo", [Ty.double], Ty.double, Linkage.External⟩], [], [],
          ["Incorrect number of arguments passed."]⟩) := by
  rw [CallExpr_codegen_arity_mismatch "foo" []
    ⟨[⟨"foo", [Ty.double], Ty.double, Linkage.External⟩], [], [], []⟩
    ⟨"foo", [Ty.double], Ty.double, Linkage.External⟩ rfl (by decide)]
  rfl

theorem nvFind_append_none (m : List (String × Option Value)) (n : String)
    (h : nvFind m n = none) : nvFind (m ++ [(n, none)]) n = some none := by
  induction m with
  | nil => simp [nvFind]
  | cons p rest ih =>
    obtain ⟨k, v⟩ := p
    by_cases hp : k = n
    · simp only [nvFind, hp, if_pos] at h
      cases h
    · simp only [List.cons_append, nvFind] at h ⊢
      rw [if_neg hp] at h ⊢
      exact ih h

/-- C10: codegen of a variable whose name is absent from NamedValues
returns the null result and logs the unknown-variable diagnostic, but is
not read-only: the subscript lookup default-inserts a null entry for the
name, so the table's key set grows on the error path. -/
theorem VariableExpr_codegen_missing_inserts (n : String) (cg : CG)
    (h : nvFind cg.namedValues n = none) :
    ExprAST.codegen (ExprAST.VariableExprAST n) cg
      = (none, { cg with
          namedValues := cg.namedValues ++ [(n, none)],
          errs := cg.errs ++ ["Unknown variable name"] })
    ∧ nvFind ((ExprAST.codegen (ExprAST.VariableExprAST n) cg).2).namedValues n
      = some none := by
  have he : ExprAST.codegen (ExprAST.VariableExprAST n) cg
      = (none, { cg with
          namedValues := cg.namedValues ++ [(n, none)],
          errs := cg.errs ++ ["Unknown variable name"] }) := by
    simp only [ExprAST.codegen, nvIndex, h, LogErrorV]
  refine ⟨he, ?_⟩
  rw [he]
  exact nvFind_append_none cg.namedValues n h

/-- Witness for C10: looking up x in an empty binding table. -/
theorem VariableExpr_codegen_missing_inserts_witness :
    ExprAST.codegen (ExprAST.VariableExprAST "x") ⟨[], [], [], []⟩
      = (none, ⟨[], [("x", none)], [], ["Unknown variable name"]⟩) :=
  (VariableExpr_codegen_missing_inserts "x" ⟨[], [], [], []⟩ rfl).1

/-- C7: codegen of a binary node first generates both operands (in
source order); if either fails the null result propagates and the node
itself emits nothing beyond what the operand codegens emitted.  On
success, plus, minus and star emit the corresponding floating-point
arithmetic instruction; less-than emits an unsigned-less-than
floating-point comparison (whose result width is i1) followed by a
widening uitofp to double; and any other operator character fails with
the invalid-binary-operator diagnostic, emitting nothing. -/
theorem BinaryExpr_codegen_cases (op : Char) (l r : ExprAST) (cg : CG) :
    ((ExprAST.codegen l cg).1 = none ∨
        (ExprAST.codegen r (ExprAST.codegen l cg).2).1 = none →
      ExprAST.codegen (ExprAST.BinaryExprAST op l r) cg
        = (none, (ExprAST.codegen r (ExprAST.codegen l cg).2).2))
    ∧ ∀ lv rv, (ExprAST.codegen l cg).1 = some lv →
        (ExprAST.codegen r (ExprAST.codegen l cg).2).1 = some rv →
        (op = '+' → ExprAST.codegen (ExprAST.BinaryExprAST op l r) cg
          = (some (Value.instr
              (ExprAST.codegen r (ExprAST.codegen l cg).2).2.instrs.length),
             { (ExprAST.codegen r (ExprAST.codegen l cg).2).2 with instrs :=
               (ExprAST.codegen r (ExprAST.codegen l cg).2).2.instrs
                 ++ [Instr.FAdd lv rv] }))
        ∧ (op = '-' → ExprAST.codegen (ExprAST.BinaryExprAST op l r) cg
          = (some (Value.instr
              (ExprAST.codegen r (ExprAST.codegen l cg).2).2.instrs.length),
             { (ExprAST.codegen r (ExprAST.codegen l cg).2).2 with instrs :=
               (ExprAST.codegen r (ExprAST.codegen l cg).2).2.instrs
                 ++ [Instr.FSub lv rv] }))
        ∧ (op = '*' → ExprAST.codegen (ExprAST.BinaryExprAST op l r) cg
          = (some (Value.instr
              (ExprAST.codegen r (ExprAST.codegen l cg).2).2.instrs.length),
             { (ExprAST.codegen r (ExprAST.codegen l cg).2).2 with instrs :=
               (ExprAST.codegen r (ExprAST.codegen l cg).2).2.instrs
                 ++ [Instr.FMul lv rv] }))
        ∧ (op = '<' → ExprAST.codegen (ExprAST.BinaryExprAST op l r) cg
          = (some (Value.instr
              ((ExprAST.codegen r (ExprAST.codegen l cg).2).2.instrs.length
                + 1)),
             { (ExprAST.codegen r (ExprAST.codegen l cg).2).2 with instrs :=
               (ExprAST.codegen r (ExprAST.codegen l cg).2).2.instrs
                 ++ [Instr.FCmpULT lv rv,
                     Instr.UIToFP (Value.instr
                       (ExprAST.codegen r
                         (ExprAST.codegen l cg).2).2.instrs.length)
                       Ty.double] })
            ∧ (Instr.FCmpULT lv rv).resTy = Ty.i1
            ∧ (Instr.UIToFP (Value.instr
                (ExprAST.codegen r
                  (ExprAST.codegen l cg).2).2.instrs.length)
                Ty.double).resTy = Ty.double)
        ∧ (op ≠ '+' → op ≠ '-' → op ≠ '*' → op ≠ '<' →
            ExprAST.codegen (ExprAST.BinaryExprAST op l r) cg
              = (none, { (ExprAST.codegen r (ExprAST.codegen l cg).2).2 with
                  errs := (ExprAST.codegen r
                    (ExprAST.codegen l cg).2).2.errs
                    ++ ["invalid binary operator"] })) := by
  rcases hL : ExprAST.codegen l cg with ⟨L, cg1⟩
  rcases hR : ExprAST.codegen r cg1 with ⟨R, cg2⟩
  constructor
  · intro hfail
    simp only [ExprAST.codegen, hL, hR]
    simp only [hL, hR] at hfail
    rcases hfail with hf | hf
    · subst hf
      cases R <;> rfl
    · subst hf
      cases L <;> rfl
  · intro lv rv hlv hrv
    simp only [hL] at hlv
    simp only [hL, hR] at hrv
    subst hlv
    subst hrv
    refine ⟨?_, ?_, ?_, ?_, ?_⟩
    · intro hop
      subst hop
      simp only [ExprAST.codegen, hL, hR]
      rfl
    · intro hop
      subst hop
      simp only [ExprAST.codegen, hL, hR]
      rfl
    · intro hop
      subst hop
      simp only [ExprAST.codegen, hL, hR]
      rfl
    · intro hop
      subst hop
      refine ⟨?_, rfl, rfl⟩
      simp only [ExprAST.codegen, hL, hR, emit]
      simp [List.append_assoc, List.length_append]
    · intro hp hm hs hl
      simp only [ExprAST.codegen, hL, hR]
      rw [if_neg hp, if_neg hm, if_neg hs, if_neg hl]
      rfl

/-! ## Function-definition code generation (C2)

src/main.cpp has no FunctionAST::codegen: the class (lines 126-133)
declares no codegen member, and HandleDefinition (lines 309-316) only
parses and prints.  The definitions below are therefore modelled from
the specification rather than from the source. -/

/-- The parameter handles of a declared function, in order. -/
def argHandles (F : FunctionDecl) : List Value :=
  (List.range F.paramTypes.length).map (Value.arg F.name)

/-- Zip declared parameter names with the function's actual parameter
handles, in order, as the fresh per-invocation binding table. -/
def bindParams (names : List String) (hs : List Value) :
    List (String × Option Value) :=
  (names.zip hs).map (fun p => (p.1, some p.2))

/-- Erase a function from the module (eraseFromParent). -/
def removeFunction (m : List FunctionDecl) (n : String) : List FunctionDecl :=
  m.filter (fun F => F.name ≠ n)

/-- Modelled from the spec: the first half of function-definition
codegen, which src/main.cpp lacks (FunctionAST declares no codegen
member and none is defined).  Per spec section 4.3, generate (or reuse)
the prototype's declaration and populate the parameter-binding table by
zipping the declared parameter names with the function's actual
parameter handles in order. -/
def funSetup (fd : FunctionAST) (cg : CG) : FunctionDecl × CG :=
  match getFunction cg.module fd.proto.name with
  | some F =>
    (F, { cg with namedValues := bindParams fd.proto.args (argHandles F) })
  | none =>
    let F := protoDecl fd.proto
    (F, { cg with
            module := cg.module ++ [F],
            namedValues := bindParams fd.proto.args (argHandles F) })

/-- Modelled from the spec: FunctionAST::codegen, which src/main.cpp
lacks.  Per spec section 4.3, after the setup the body expression is
generated in that scope; on success the body's result becomes the
function's return value, and if body codegen fails the partially built
function is removed from the module rather than left malformed. -/
def FunctionAST.codegen (fd : FunctionAST) (cg : CG) :
    Option (FunctionDecl × Value) × CG :=
  match ExprAST.codegen fd.body (funSetup fd cg).2 with
  | (some ret, cg2) => (some ((funSetup fd cg).1, ret), cg2)
  | (none, cg2) =>
    (none, { cg2 with module := removeFunction cg2.module fd.proto.name })

theorem getFunction_removeFunction (m : List FunctionDecl) (n : String) :
    getFunction (removeFunction m n) n = none := by
  induction m with
  | nil => rfl
  | cons F rest ih =>
    by_cases hF : F.name = n
    · have hd : (decide (F.name ≠ n)) = false := by simp [hF]
      simp only [removeFunction, List.filter, hd] at ih ⊢
      exact ih
    · have hd : (decide (F.name ≠ n)) = true := by simp [hF]
      simp only [removeFunction, List.filter, hd] at ih ⊢
      simp only [getFunction]
      rw [if_neg hF]
      exact ih

/-- C2: function-definition codegen reuses the module's declaration of
the prototype's name or generates a fresh one, binds exactly the zip of
declared parameter names with the function's parameter handles as the
per-invocation table in which the body is generated, emits nothing
itself before the body; on body success the body's result is paired
with the function as its return value, and on body failure the result
is null and the function is no longer present in the module. -/
theorem FunctionAST_codegen_definition_flow (fd : FunctionAST) (cg : CG) :
    (funSetup fd cg).2.namedValues
        = bindParams fd.proto.args (argHandles (funSetup fd cg).1)
    ∧ (funSetup fd cg).2.instrs = cg.instrs
    ∧ ((getFunction cg.module fd.proto.name = some (funSetup fd cg).1
          ∧ (funSetup fd cg).2.module = cg.module)
        ∨ (getFunction cg.module fd.proto.name = none
          ∧ (funSetup fd cg).1 = protoDecl fd.proto
          ∧ (funSetup fd cg).2.module = cg.module ++ [protoDecl fd.proto]))
    ∧ (∀ v cg2, ExprAST.codegen fd.body (funSetup fd cg).2 = (some v, cg2) →
        FunctionAST.codegen fd cg = (some ((funSetup fd cg).1, v), cg2))
    ∧ (∀ cg2, ExprAST.codegen fd.body (funSetup fd cg).2 = (none, cg2) →
        (FunctionAST.codegen fd cg).1 = none
        ∧ getFunction ((FunctionAST.codegen fd cg).2).module fd.proto.name
            = none) := by
  refine ⟨?_, ?_, ?_, ?_, ?_⟩
  · rcases hS : getFunction cg.module fd.proto.name with _ | F <;>
      simp [funSetup, hS]
  · rcases hS : getFunction cg.module fd.proto.name with _ | F <;>
      simp [funSetup, hS]
  · rcases hS : getFunction cg.module fd.proto.name with _ | F
    · right
      refine ⟨rfl, ?_, ?_⟩ <;> simp [funSetup, hS]
    · left
      refine ⟨?_, ?_⟩ <;> simp [funSetup, hS]
  · intro v cg2 hbody
    rw [FunctionAST.codegen, hbody]
  · intro cg2 hbody
    rw [FunctionAST.codegen, hbody]
    exact ⟨rfl, getFunction_removeFunction _ _⟩

/-- Witness for C2: generating the definition def foo(x) x in an empty
module declares foo and returns its parameter as the return value. -/
theorem FunctionAST_codegen_definition_flow_witness :
    FunctionAST.codegen ⟨⟨"foo", ["x"]⟩, ExprAST.VariableExprAST "x"⟩
        ⟨[], [], [], []⟩
      = (some (⟨"foo", [Ty.double], Ty.double, Linkage.External⟩,
          Value.arg "foo" 0),
         ⟨[⟨"foo", [Ty.double], Ty.double, Linkage.External⟩],
          [("x", some (Value.arg "foo" 0))], [], []⟩) := by
  have h := (FunctionAST_codegen_definition_flow
    ⟨⟨"foo", ["x"]⟩, ExprAST.VariableExprAST "x"⟩ ⟨[], [], [], []⟩).2.2.2.1
    (Value.arg "foo" 0)
    ⟨[⟨"foo", [Ty.double], Ty.double, Linkage.External⟩],
     [("x", some (Value.arg "foo" 0))], [], []⟩ rfl
  rw [h]
  rfl

/-- Witness for C7: generating code for 1.0 < 2.0 emits the comparison
and the widening conversion. -/
theorem BinaryExpr_codegen_cases_witness :
    ExprAST.codegen (ExprAST.BinaryExprAST '<' (ExprAST.NumberExprAST "1.0")
        (ExprAST.NumberExprAST "2.0")) ⟨[], [], [], []⟩
      = (some (Value.instr 1), ⟨[], [],
          [Instr.FCmpULT (Value.constFP "1.0") (Value.constFP "2.0"),
           Instr.UIToFP (Value.instr 0) Ty.double], []⟩) := by
  have h := ((BinaryExpr_codegen_cases '<' (ExprAST.NumberExprAST "1.0")
    (ExprAST.NumberExprAST "2.0") ⟨[], [], [], []⟩).2
    (Value.constFP "1.0") (Value.constFP "2.0") rfl rfl).2.2.2.1 rfl
  rw [h.1]
  rfl

end Kaleidoscope
